import Mathlib

/-!
Verification of the knapsack repair operator `ConsiderMaximumWeightRepair._do`
(doc/source/tutorial/repair.ipynb) and of the generational loop around it.

The repair operator works per individual on a binary packing plan `z` with a
per-item integer weight vector `W` and capacity `Q`:
  - `weights = (Z * problem.W).sum(axis=1)` initialises a tracked usage;
  - `while weights[i] > Q`: pick a uniformly random currently-selected item
    (`np.random.choice(np.where(z)[0])`, which raises on an empty selection),
    deselect it, and decrement the tracked usage by that item's weight;
  - finally the repaired plans are written back with `pop.set("X", Z)`.

Randomness is modelled by an explicit stream `rng : Nat → Nat`, consumed at a
`t`-indexed position for every draw; a draw at time `t` selects position
`rng t % sel.length` of the list `sel` of currently-selected indices.  The
crash of `np.random.choice` on an empty candidate array is modelled by
`Option`: `none` is the aborted call.  The loop removes one selected item per
iteration, so `countTrue z + 1` units of fuel make the fuel-exhaustion branch
unreachable; it is kept as `none` so that every `some` result really exited
through the loop condition.
-/

namespace PymooRepair

/-- Row-wise dot product of a binary packing plan with a weight vector:
`(Z * problem.W).sum(axis=1)` for a single individual.  Faithful when
`W.length = z.length`; on mismatched lengths numpy raises a broadcast
ValueError (except for a length-1 `W`, which broadcasts) while `zipWith`
truncates, so theorems that assert normal return carry equal-length
hypotheses. -/
def dotBW (z : List Bool) (W : List Int) : Int :=
  (List.zipWith (fun b w => if b then w else 0) z W).sum

/-- The number of selected items of a packing plan. -/
def countTrue : List Bool → Nat
  | [] => 0
  | b :: r => (if b then 1 else 0) + countTrue r

/-- `np.where(z)[0]`: the indices of the currently selected items. -/
def selectedIdx (z : List Bool) : List Nat :=
  (List.range z.length).filter (fun i => z.getD i false)

/-- Last element of a trace with a default. -/
def lastD : List Int → Int → Int
  | [], d => d
  | x :: l, _ => lastD l x

/-- The constraint violation of a plan against the capacity constraint
(0 when feasible). -/
def evalCV (Q : Int) (W : List Int) (z : List Bool) : Int :=
  max (dotBW z W - Q) 0

/-- The repair loop of `ConsiderMaximumWeightRepair._do` for one individual:
while the tracked usage `u` exceeds `Q`, draw a selected item, deselect it and
decrement `u` by its weight.  `t` is the position in the random stream, the
result carries the stream position after the call.  `none` models the
`np.random.choice` crash on an empty selection (and the unreachable
fuel-exhaustion branch).  The decrement reads the removed item's weight as
`W.getD j 0`: faithful when `W.length = z.length` (then `j < W.length`);
on a too-short `W` the code's `problem.W[item_to_remove]` would raise an
IndexError instead, so totality theorems carry equal-length hypotheses. -/
def repairGo (Q : Int) (W : List Int) (rng : Nat → Nat) :
    Nat → Nat → List Bool → Int → Option (List Bool × Nat)
  | 0, _, _, _ => none
  | fuel + 1, t, z, u =>
    if u ≤ Q then some (z, t)
    else
      let sel := selectedIdx z
      if sel.length = 0 then none
      else
        let j := sel.getD (rng t % sel.length) 0
        repairGo Q W rng fuel (t + 1) (z.set j false) (u - W.getD j 0)

/-- Repair of one individual: initialise the tracked usage as the dot product
of the plan and the weights, then run the removal loop. -/
def repairInd (Q : Int) (W : List Int) (rng : Nat → Nat) (t : Nat)
    (z : List Bool) : Option (List Bool × Nat) :=
  repairGo Q W rng (countTrue z + 1) t z (dotBW z W)

/-- The `for i in range(len(Z))` loop of `_do`: repair each individual in
order, threading the random stream position through the population.  A crash
for one individual aborts the whole call. -/
def repairXs (Q : Int) (W : List Int) (rng : Nat → Nat) :
    Nat → List (List Bool) → Option (List (List Bool) × Nat)
  | t, [] => some ([], t)
  | t, z :: rest =>
    match repairInd Q W rng t z with
    | none => none
    | some (z', t') =>
      match repairXs Q W rng t' rest with
      | none => none
      | some (out, t'') => some (z' :: out, t'')

/-- An Individual: decision vector `X` plus cached evaluation results,
unset until the Individual has passed through evaluation. -/
structure Individual where
  X : List Bool
  F : Option Int := none
  CV : Option Int := none
deriving DecidableEq

/-- Write a decision vector into an Individual, leaving `F` and `CV` alone. -/
def setX (ind : Individual) (x : List Bool) : Individual :=
  { ind with X := x }

/-- A default Individual (only used as the fallback of `List.getD`). -/
def dfltInd : Individual :=
  { X := [], F := none, CV := none }

/-- `_do` at population level: `Z = pop.get("X")`, repair every row, then
`pop.set("X", Z)` writes only the decision vectors back. -/
def repairPopulation (Q : Int) (W : List Int) (rng : Nat → Nat) (t : Nat)
    (pop : List Individual) : Option (List Individual) :=
  match repairXs Q W rng t (pop.map Individual.X) with
  | none => none
  | some (out, _) => some (List.zipWith setX pop out)

/-- The sequence of tracked-usage values (`weights[i]`) visited by the removal
loop of one repair call, including the value at entry and at every check of
the loop condition. -/
def usageTrace (Q : Int) (W : List Int) (rng : Nat → Nat) :
    Nat → Nat → List Bool → Int → List Int
  | 0, _, _, u => [u]
  | fuel + 1, t, z, u =>
    if u ≤ Q then [u]
    else
      let sel := selectedIdx z
      if sel.length = 0 then [u]
      else
        let j := sel.getD (rng t % sel.length) 0
        u :: usageTrace Q W rng fuel (t + 1) (z.set j false) (u - W.getD j 0)

/-- Modelled from the spec: the reference removal loop with the usage
recomputed fresh from the current plan at every check, `dot(z, W)`, instead of
the code's incrementally maintained `weights[i]`.  Used to state that the
code's bookkeeping refines this specification. -/
def repairGoFresh (Q : Int) (W : List Int) (rng : Nat → Nat) :
    Nat → Nat → List Bool → Option (List Bool × Nat)
  | 0, _, _ => none
  | fuel + 1, t, z =>
    if dotBW z W ≤ Q then some (z, t)
    else
      let sel := selectedIdx z
      if sel.length = 0 then none
      else
        let j := sel.getD (rng t % sel.length) 0
        repairGoFresh Q W rng fuel (t + 1) (z.set j false)

/-- Per-generation statistics reported by the verbose output. -/
structure GenStat where
  n_eval : Nat
  cvs : List Int
  best : Option Int
deriving DecidableEq

/-- Modelled from the spec: the generational loop of the Algorithm (pymoo's
`minimize` / GA machinery is not part of the source here; §4.2 of the spec
describes it).  Per generation: a variation oracle `varOp` produces the
offspring plans, the configured repair is applied to the whole batch, and only
then is the batch evaluated — constraint violations `evalCV` and objective
values (negated knapsack profit over the value vector `b`) are computed from
the post-repair plans, and the cumulative evaluation counter advances by the
batch size. -/
def runLoop (Q : Int) (W b : List Int) (rng : Nat → Nat)
    (varOp : Nat → List (List Bool)) :
    Nat → Nat → Nat → Option (List GenStat)
  | 0, _, _ => some []
  | g + 1, t, ne =>
    match repairXs Q W rng t (varOp g) with
    | none => none
    | some (Zs, t') =>
      let cvs := Zs.map (evalCV Q W)
      let fs := Zs.map (fun z => -(dotBW z b))
      let ne' := ne + Zs.length
      match runLoop Q W b rng varOp g t' ne' with
      | none => none
      | some hist => some ({ n_eval := ne', cvs := cvs, best := fs.min? } :: hist)

/-! ### Basic lemmas about plans, selections and the dot product -/

theorem getD_true_lt : ∀ (z : List Bool) (j : Nat), z.getD j false = true → j < z.length
  | [], _, h => by simp at h
  | _ :: _, 0, _ => by simp
  | _ :: r, j + 1, h => by
    have := getD_true_lt r j (by simpa using h)
    simpa using Nat.succ_lt_succ this

theorem getD_default_of_le {α : Type} :
    ∀ (l : List α) (k : Nat) (d : α), l.length ≤ k → l.getD k d = d
  | [], _, _, _ => by simp
  | _ :: _, 0, _, h => by simp at h
  | _ :: l, k + 1, d, h => by
    simpa using getD_default_of_le l k d (by simpa using h)

theorem getD_mem {α : Type} :
    ∀ (l : List α) (k : Nat) (d : α), k < l.length → l.getD k d ∈ l
  | [], _, _, h => absurd h (by simp)
  | _ :: _, 0, _, _ => by simp
  | _ :: l, k + 1, d, h => by
    simpa using Or.inr (getD_mem l k d (by simpa using h))

theorem getD_nonneg {W : List Int} (hW : ∀ w ∈ W, 0 ≤ w) (j : Nat) :
    0 ≤ W.getD j 0 := by
  by_cases h : j < W.length
  · exact hW _ (getD_mem W j 0 h)
  · rw [getD_default_of_le W j 0 (Nat.le_of_not_lt h)]

theorem countTrue_set : ∀ (z : List Bool) (j : Nat), z.getD j false = true →
    countTrue (z.set j false) + 1 = countTrue z
  | [], _, h => by simp at h
  | b :: r, 0, h => by
    have hb : b = true := by simpa using h
    subst hb
    simp [countTrue]
    omega
  | b :: r, j + 1, h => by
    have ih := countTrue_set r j (by simpa using h)
    simp only [List.set_cons_succ, countTrue] at *
    omega

theorem dotBW_nil (z : List Bool) : dotBW z [] = 0 := by
  cases z <;> simp [dotBW]

theorem dotBW_cons (b : Bool) (r : List Bool) (w : Int) (Ws : List Int) :
    dotBW (b :: r) (w :: Ws) = (if b then w else 0) + dotBW r Ws := by
  simp [dotBW]

theorem dotBW_set : ∀ (z : List Bool) (W : List Int) (j : Nat),
    z.getD j false = true →
    dotBW (z.set j false) W = dotBW z W - W.getD j 0
  | [], _, _, h => by simp at h
  | b :: r, [], j, _ => by simp [dotBW_nil]
  | b :: r, w :: Ws, 0, h => by
    have hb : b = true := by simpa using h
    subst hb
    simp [dotBW_cons]
  | b :: r, w :: Ws, j + 1, h => by
    have ih := dotBW_set r Ws j (by simpa using h)
    simp only [List.set_cons_succ, dotBW_cons, List.getD_cons_succ, ih]
    ring

theorem mem_selectedIdx {z : List Bool} {j : Nat} :
    j ∈ selectedIdx z ↔ j < z.length ∧ z.getD j false = true := by
  simp [selectedIdx, List.mem_filter, List.mem_range]

theorem dotBW_eq_zero_of_all_false :
    ∀ (z : List Bool) (W : List Int), (∀ j, z.getD j false = false) → dotBW z W = 0
  | [], _, _ => by simp [dotBW]
  | _ :: _, [], _ => by simp [dotBW_nil]
  | b :: r, w :: Ws, h => by
    have hb : b = false := by simpa using h 0
    have ih := dotBW_eq_zero_of_all_false r Ws (fun j => by simpa using h (j + 1))
    simp [dotBW_cons, hb, ih]

theorem dotBW_eq_zero_of_selectedIdx_nil {z : List Bool} (W : List Int)
    (h : selectedIdx z = []) : dotBW z W = 0 := by
  apply dotBW_eq_zero_of_all_false
  intro j
  by_cases hj : j < z.length
  · have hmem : j ∈ List.range z.length := List.mem_range.2 hj
    have := List.filter_eq_nil_iff.1 h j hmem
    simpa using this
  · exact getD_default_of_le z j false (Nat.le_of_not_lt hj)

theorem getD_set_true : ∀ (z : List Bool) (i j : Nat),
    (z.set j false).getD i false = true → z.getD i false = true
  | [], _, _, h => by simp at h
  | b :: r, 0, 0, h => by simp at h
  | b :: r, i + 1, 0, h => by simpa using h
  | b :: r, 0, j + 1, h => by simpa using h
  | b :: r, i + 1, j + 1, h => by
    have := getD_set_true r i j (by simpa using h)
    simpa using this

/-! ### Soundness and totality of the removal loop -/

theorem repairGo_some_spec (Q : Int) (W : List Int) (rng : Nat → Nat) :
    ∀ (fuel t : Nat) (z z' : List Bool) (t' : Nat),
      repairGo Q W rng fuel t z (dotBW z W) = some (z', t') →
      dotBW z' W ≤ Q ∧
      (∀ j, z'.getD j false = true → z.getD j false = true) ∧
      z'.length = z.length ∧ countTrue z' ≤ countTrue z ∧
      t' = t + (countTrue z - countTrue z')
  | 0, t, z, z', t', h => by simp [repairGo] at h
  | fuel + 1, t, z, z', t', h => by
    simp only [repairGo] at h
    by_cases hle : dotBW z W ≤ Q
    · rw [if_pos hle] at h
      obtain ⟨hz, ht⟩ := Prod.mk.injEq .. ▸ Option.some.injEq .. ▸ h
      subst hz; subst ht
      exact ⟨hle, fun j hj => hj, rfl, le_refl _, by omega⟩
    · rw [if_neg hle] at h
      by_cases hsel : (selectedIdx z).length = 0
      · rw [if_pos hsel] at h
        exact absurd h (by simp)
      · rw [if_neg hsel] at h
        have hk : rng t % (selectedIdx z).length < (selectedIdx z).length :=
          Nat.mod_lt _ (Nat.pos_of_ne_zero hsel)
        have hjt : z.getD ((selectedIdx z).getD (rng t % (selectedIdx z).length) 0) false
            = true := (mem_selectedIdx.1 (getD_mem _ _ _ hk)).2
        rw [← dotBW_set z W _ hjt] at h
        obtain ⟨h1, h2, h3, h4, h5⟩ :=
          repairGo_some_spec Q W rng fuel (t + 1) _ z' t' h
        have hcount := countTrue_set z _ hjt
        refine ⟨h1, fun i hi => getD_set_true z i _ (h2 i hi), ?_, by omega, by omega⟩
        rw [h3, List.length_set]

theorem repairGo_isSome (Q : Int) (W : List Int) (rng : Nat → Nat) (hQ : 0 ≤ Q) :
    ∀ (fuel t : Nat) (z : List Bool), countTrue z < fuel →
      (repairGo Q W rng fuel t z (dotBW z W)).isSome
  | 0, _, _, h => absurd h (Nat.not_lt_zero _)
  | fuel + 1, t, z, hfuel => by
    simp only [repairGo]
    by_cases hle : dotBW z W ≤ Q
    · simp [hle]
    · rw [if_neg hle]
      have hselne : ¬((selectedIdx z).length = 0) := by
        intro h0
        exact hle (by
          rw [dotBW_eq_zero_of_selectedIdx_nil W (List.length_eq_zero.1 h0)]
          exact hQ)
      rw [if_neg hselne]
      have hk : rng t % (selectedIdx z).length < (selectedIdx z).length :=
        Nat.mod_lt _ (Nat.pos_of_ne_zero hselne)
      have hjt : z.getD ((selectedIdx z).getD (rng t % (selectedIdx z).length) 0) false
          = true := (mem_selectedIdx.1 (getD_mem _ _ _ hk)).2
      rw [← dotBW_set z W _ hjt]
      have hdec := countTrue_set z _ hjt
      exact repairGo_isSome Q W rng hQ fuel (t + 1) _ (by omega)

theorem repairGo_fuel_irrelevant (Q : Int) (W : List Int) (rng : Nat → Nat) :
    ∀ (fuel t : Nat) (z : List Bool) (u : Int), countTrue z < fuel →
      repairGo Q W rng fuel t z u = repairGo Q W rng (countTrue z + 1) t z u
  | 0, _, _, _, h => absurd h (Nat.not_lt_zero _)
  | fuel + 1, t, z, u, hfuel => by
    conv_rhs => rw [repairGo]
    rw [repairGo]
    by_cases hle : u ≤ Q
    · rw [if_pos hle, if_pos hle]
    · rw [if_neg hle, if_neg hle]
      by_cases hsel : (selectedIdx z).length = 0
      · rw [if_pos hsel, if_pos hsel]
      · rw [if_neg hsel, if_neg hsel]
        have hk : rng t % (selectedIdx z).length < (selectedIdx z).length :=
          Nat.mod_lt _ (Nat.pos_of_ne_zero hsel)
        have hjt : z.getD ((selectedIdx z).getD (rng t % (selectedIdx z).length) 0) false
            = true := (mem_selectedIdx.1 (getD_mem _ _ _ hk)).2
        have hdec := countTrue_set z _ hjt
        rw [repairGo_fuel_irrelevant Q W rng fuel (t + 1) _ _ (by omega),
          repairGo_fuel_irrelevant Q W rng (countTrue z) (t + 1) _ _ (by omega)]

theorem repairInd_some_spec {Q : Int} {W : List Int} {rng : Nat → Nat}
    {t : Nat} {z z' : List Bool} {t' : Nat}
    (h : repairInd Q W rng t z = some (z', t')) :
    dotBW z' W ≤ Q ∧
    (∀ j, z'.getD j false = true → z.getD j false = true) ∧
    z'.length = z.length ∧ countTrue z' ≤ countTrue z ∧
    t' = t + (countTrue z - countTrue z') :=
  repairGo_some_spec Q W rng (countTrue z + 1) t z z' t' h

theorem repairInd_isSome (Q : Int) (W : List Int) (rng : Nat → Nat)
    (hQ : 0 ≤ Q) (t : Nat) (z : List Bool) :
    (repairInd Q W rng t z).isSome :=
  repairGo_isSome Q W rng hQ (countTrue z + 1) t z (Nat.lt_succ_self _)

theorem repairInd_of_feasible (Q : Int) (W : List Int) (rng : Nat → Nat)
    (t : Nat) (z : List Bool) (h : dotBW z W ≤ Q) :
    repairInd Q W rng t z = some (z, t) := by
  simp [repairInd, repairGo, h]

/-! ### Population-level helpers -/

theorem repairXs_strong (Q : Int) (W : List Int) (rng : Nat → Nat) (hQ : 0 ≤ Q) :
    ∀ (t : Nat) (Zs : List (List Bool)),
      ∃ Zs' t', repairXs Q W rng t Zs = some (Zs', t') ∧
        Zs'.length = Zs.length ∧
        (∀ z' ∈ Zs', dotBW z' W ≤ Q) ∧
        (∀ i, dotBW (Zs'.getD i []) W ≤ Q ∧
          (∀ j, (Zs'.getD i []).getD j false = true →
            (Zs.getD i []).getD j false = true) ∧
          (Zs'.getD i []).length = (Zs.getD i []).length ∧
          countTrue (Zs'.getD i []) ≤ countTrue (Zs.getD i []))
  | t, [] => by
    refine ⟨[], t, rfl, rfl, by simp, fun i => ?_⟩
    have he : ([] : List (List Bool)).getD i [] = [] := by simp
    rw [he]
    exact ⟨by simpa [dotBW] using hQ, fun j h => h, rfl, le_refl _⟩
  | t, z :: rest => by
    obtain ⟨p, hp⟩ := Option.isSome_iff_exists.1 (repairInd_isSome Q W rng hQ t z)
    obtain ⟨z1, t1⟩ := p
    obtain ⟨hfe, hsub, hlen, hcnt, _⟩ := repairInd_some_spec hp
    obtain ⟨out, t2, hrun, hl, hmem, hpt⟩ := repairXs_strong Q W rng hQ t1 rest
    refine ⟨z1 :: out, t2, ?_, by simpa using hl, ?_, ?_⟩
    · simp [repairXs, hp, hrun]
    · intro z' hz'
      rcases List.mem_cons.1 hz' with h | h
      · exact h ▸ hfe
      · exact hmem z' h
    · intro i
      cases i with
      | zero => exact ⟨hfe, hsub, hlen, hcnt⟩
      | succ i => simpa using hpt i

theorem repairXs_of_all_feasible (Q : Int) (W : List Int) (rng : Nat → Nat) :
    ∀ (t : Nat) (Zs : List (List Bool)), (∀ z ∈ Zs, dotBW z W ≤ Q) →
      repairXs Q W rng t Zs = some (Zs, t)
  | _, [], _ => rfl
  | t, z :: rest, h => by
    have hz := repairInd_of_feasible Q W rng t z (h z (List.mem_cons_self z rest))
    have hrest := repairXs_of_all_feasible Q W rng t rest
      (fun z' hz' => h z' (List.mem_cons_of_mem z hz'))
    simp [repairXs, hz, hrest]

theorem countTrue_le_length : ∀ z : List Bool, countTrue z ≤ z.length
  | [] => le_refl _
  | b :: r => by
    have := countTrue_le_length r
    cases b <;> simp [countTrue] <;> omega

theorem evalCV_eq_zero_of_le {Q : Int} {W : List Int} {z : List Bool}
    (h : dotBW z W ≤ Q) : evalCV Q W z = 0 :=
  max_eq_right (by omega)

theorem evalCV_nonneg (Q : Int) (W : List Int) (z : List Bool) :
    0 ≤ evalCV Q W z :=
  le_max_right _ _

theorem dotBW_le_of_subset :
    ∀ (z' z : List Bool) (b : List Int), z'.length = z.length →
      (∀ j, z'.getD j false = true → z.getD j false = true) →
      (∀ v ∈ b, 0 ≤ v) → dotBW z' b ≤ dotBW z b
  | [], [], b, _, _, _ => le_refl _
  | [], z :: zs, b, hl, _, _ => by simp at hl
  | z' :: zs', [], b, hl, _, _ => by simp at hl
  | c :: r', d :: r, [], _, _, _ => by simp [dotBW_nil]
  | c :: r', d :: r, v :: bs, hl, hsub, hb => by
    have htail := dotBW_le_of_subset r' r bs (by simpa using hl)
      (fun j hj => by simpa using hsub (j + 1) (by simpa using hj))
      (fun w hw => hb w (List.mem_cons_of_mem v hw))
    have hhead : (if c then v else 0) ≤ (if d then v else 0) := by
      cases hc : c with
      | false => cases d <;> simp [hb v (List.mem_cons_self v bs)]
      | true =>
        have : d = true := hsub 0 (by simpa using hc)
        simp [this]
    simpa [dotBW_cons] using add_le_add hhead htail

/-! ### Claim theorems -/

/-- Claim C1: for every population and problem with non-negative weight vector
`W` and non-negative capacity `Q`, repair succeeds and every individual it
outputs satisfies `dot(X, W) ≤ Q`; the capacity-constraint violation,
recomputed from the post-repair plan, is zero, hence reduced or unchanged
relative to its pre-repair value. -/
theorem claim_C1_feasibility (Q : Int) (W : List Int) (rng : Nat → Nat)
    (t : Nat) (Zs : List (List Bool))
    (_hW : ∀ w ∈ W, 0 ≤ w) (hQ : 0 ≤ Q) :
    ∃ Zs' t', repairXs Q W rng t Zs = some (Zs', t') ∧
      Zs'.length = Zs.length ∧
      ∀ i, dotBW (Zs'.getD i []) W ≤ Q ∧
        evalCV Q W (Zs'.getD i []) = 0 ∧
        evalCV Q W (Zs'.getD i []) ≤ evalCV Q W (Zs.getD i []) := by
  obtain ⟨Zs', t', hrun, hlen, _hfeas, hpt⟩ := repairXs_strong Q W rng hQ t Zs
  refine ⟨Zs', t', hrun, hlen, fun i => ?_⟩
  obtain ⟨h1, _, _, _⟩ := hpt i
  exact ⟨h1, evalCV_eq_zero_of_le h1,
    (evalCV_eq_zero_of_le h1) ▸ evalCV_nonneg Q W (Zs.getD i [])⟩

/-- Claim C3: with non-negative weights and capacity, applying repair twice in
succession yields the same decision vectors as applying it once, and an
individual whose usage already satisfies `dot(X, W) ≤ Q` is left completely
unchanged by repair. -/
theorem claim_C3_idempotent (Q : Int) (W : List Int) (rng : Nat → Nat)
    (t : Nat) (Zs : List (List Bool))
    (_hW : ∀ w ∈ W, 0 ≤ w) (hQ : 0 ≤ Q) :
    ∃ Zs' t1, repairXs Q W rng t Zs = some (Zs', t1) ∧
      (∀ t2, repairXs Q W rng t2 Zs' = some (Zs', t2)) ∧
      (∀ (z : List Bool) (t3 : Nat), dotBW z W ≤ Q →
        repairInd Q W rng t3 z = some (z, t3)) := by
  obtain ⟨Zs', t1, hrun, _, hfeas, _⟩ := repairXs_strong Q W rng hQ t Zs
  exact ⟨Zs', t1, hrun,
    fun t2 => repairXs_of_all_feasible Q W rng t2 Zs' hfeas,
    fun z t3 hz => repairInd_of_feasible Q W rng t3 z hz⟩

/-- Claim C4: with non-negative weights and capacity, the removal loop of a
repair call terminates normally, and the number of removal iterations
(one random draw each, `t' - t`) is exactly the number of deselected items,
hence at most the number of initially selected items, which is bounded by the
number of items. -/
theorem claim_C4_termination (Q : Int) (W : List Int) (rng : Nat → Nat)
    (t : Nat) (z : List Bool)
    (_hW : ∀ w ∈ W, 0 ≤ w) (hQ : 0 ≤ Q) :
    ∃ z' t', repairInd Q W rng t z = some (z', t') ∧
      t' - t = countTrue z - countTrue z' ∧
      t' - t ≤ countTrue z ∧ countTrue z ≤ z.length := by
  obtain ⟨p, hp⟩ := Option.isSome_iff_exists.1 (repairInd_isSome Q W rng hQ t z)
  obtain ⟨z', t'⟩ := p
  obtain ⟨_, _, _, hcnt, ht⟩ := repairInd_some_spec hp
  exact ⟨z', t', hp, by omega, by omega, countTrue_le_length z⟩

/-- Claim C9 (implicit): repair only ever deselects items — the post-repair
selection is a pointwise subset of the pre-repair selection — so for any
non-negative item-value vector the knapsack profit never increases under
repair. -/
theorem claim_C9_subset_profit (Q : Int) (W : List Int) (rng : Nat → Nat)
    (t : Nat) (z z' : List Bool) (t' : Nat)
    (h : repairInd Q W rng t z = some (z', t')) :
    (∀ j, z'.getD j false = true → z.getD j false = true) ∧
    ∀ b : List Int, (∀ v ∈ b, 0 ≤ v) → dotBW z' b ≤ dotBW z b := by
  obtain ⟨_, hsub, hlen, _, _⟩ := repairInd_some_spec h
  exact ⟨hsub, fun b hb => dotBW_le_of_subset z' z b hlen hsub hb⟩

theorem repairGo_eq_fresh (Q : Int) (W : List Int) (rng : Nat → Nat) :
    ∀ (fuel t : Nat) (z : List Bool),
      repairGo Q W rng fuel t z (dotBW z W) = repairGoFresh Q W rng fuel t z
  | 0, t, z => by simp [repairGo, repairGoFresh]
  | fuel + 1, t, z => by
    simp only [repairGo, repairGoFresh]
    by_cases hle : dotBW z W ≤ Q
    · simp [hle]
    · rw [if_neg hle, if_neg hle]
      by_cases hsel : (selectedIdx z).length = 0
      · rw [if_pos hsel, if_pos hsel]
      · rw [if_neg hsel, if_neg hsel]
        have hk : rng t % (selectedIdx z).length < (selectedIdx z).length :=
          Nat.mod_lt _ (Nat.pos_of_ne_zero hsel)
        have hjt : z.getD ((selectedIdx z).getD (rng t % (selectedIdx z).length) 0) false
            = true := (mem_selectedIdx.1 (getD_mem _ _ _ hk)).2
        rw [← dotBW_set z W _ hjt]
        exact repairGo_eq_fresh Q W rng fuel (t + 1) _

/-- Claim C10 (implicit): the incrementally maintained usage bookkeeping is
exact — the code's loop, tracking `weights[i]` initialised to `dot(z, W)` and
decremented on each removal, computes the same result as the specification
loop that recomputes the usage fresh from the current plan at every check of
the exit condition; in particular the exit condition always checks the true
usage of the current plan. -/
theorem claim_C10_usage_refinement (Q : Int) (W : List Int) (rng : Nat → Nat)
    (fuel t : Nat) (z : List Bool) :
    repairGo Q W rng fuel t z (dotBW z W) = repairGoFresh Q W rng fuel t z ∧
    repairInd Q W rng t z = repairGoFresh Q W rng (countTrue z + 1) t z :=
  ⟨repairGo_eq_fresh Q W rng fuel t z,
   repairGo_eq_fresh Q W rng (countTrue z + 1) t z⟩

/-- Claim C5, counterexample: with `W = [-5, 3]`, `Q = -1` and the plan
`[false, true]` (weight vector and plan of equal length, so no dimension
mismatch), the repair call fails — the removal walk empties the selection with
the usage still above `Q` and `np.random.choice` crashes on the empty
candidate array — even though the selection `[true, false]` satisfies the
capacity.  So repair does not fail exactly when no subset of items can
satisfy the capacity, refuting the claim. -/
theorem claim_C5_counterexample :
    repairInd (-1) [-5, 3] (fun _ => 0) 0 [false, true] = none ∧
    dotBW [true, false] [-5, 3] ≤ -1 ∧
    ([true, false] : List Bool).length = ([false, true] : List Bool).length ∧
    ([(-5 : Int), 3]).length = ([false, true] : List Bool).length := by
  decide

/-- Claim C5, amended, restricted to a weight vector of the same length as
each decision vector (on mismatched shapes the numpy code generally raises an
unnamed error — a broadcast ValueError at the weights computation, or an
IndexError at the weight lookup when a length-1 `W` broadcasts — not a
`DimensionMismatch`; that path is outside this embedding): the code defines
no `InfeasibleProblem` or `DimensionMismatch` error types, and the removal
loop's only failure mode is the crash of `np.random.choice` on an empty
selection, which is impossible whenever the capacity is non-negative — then
repair returns normally for every individual and every population — while
with mixed-sign data it can fail even though a feasible subset of items
exists. -/
theorem claim_C5_amended_no_failure (Q : Int) (W : List Int) (rng : Nat → Nat)
    (hQ : 0 ≤ Q) (t : Nat) (z : List Bool) (Zs : List (List Bool))
    (_hlen : W.length = z.length) (_hlenZs : ∀ z' ∈ Zs, W.length = z'.length) :
    (repairInd Q W rng t z).isSome ∧ (repairXs Q W rng t Zs).isSome := by
  refine ⟨repairInd_isSome Q W rng hQ t z, ?_⟩
  obtain ⟨Zs', t', hrun, _⟩ := repairXs_strong Q W rng hQ t Zs
  rw [hrun]
  rfl

/-! ### The usage trace of one repair call -/

theorem usageTrace_head (Q : Int) (W : List Int) (rng : Nat → Nat) :
    ∀ (fuel t : Nat) (z : List Bool) (u : Int),
      (usageTrace Q W rng fuel t z u).head? = some u
  | 0, _, _, _ => rfl
  | fuel + 1, t, z, u => by
    simp only [usageTrace]
    by_cases hle : u ≤ Q
    · simp [hle]
    · rw [if_neg hle]
      by_cases hsel : (selectedIdx z).length = 0
      · rw [if_pos hsel]
        rfl
      · rw [if_neg hsel]
        rfl

theorem usageTrace_chain (Q : Int) (W : List Int) (rng : Nat → Nat)
    (hW : ∀ w ∈ W, 0 ≤ w) :
    ∀ (fuel t : Nat) (z : List Bool) (u : Int),
      List.Chain' (fun a b => b ≤ a) (usageTrace Q W rng fuel t z u)
  | 0, _, _, _ => by simp [usageTrace]
  | fuel + 1, t, z, u => by
    simp only [usageTrace]
    by_cases hle : u ≤ Q
    · simp [hle]
    · rw [if_neg hle]
      by_cases hsel : (selectedIdx z).length = 0
      · rw [if_pos hsel]
        simp
      · rw [if_neg hsel]
        refine List.Chain'.cons'
          (usageTrace_chain Q W rng hW fuel (t + 1) _ _) ?_
        intro y hy
        rw [usageTrace_head Q W rng fuel (t + 1) _ _] at hy
        have hy' : y = u - W.getD ((selectedIdx z).getD (rng t % (selectedIdx z).length) 0) 0 := by
          simpa using hy.symm
        have hnn := getD_nonneg hW
          ((selectedIdx z).getD (rng t % (selectedIdx z).length) 0)
        omega

theorem usageTrace_lastD (Q : Int) (W : List Int) (rng : Nat → Nat)
    (hQ : 0 ≤ Q) :
    ∀ (fuel t : Nat) (z : List Bool) (d : Int), countTrue z < fuel →
      lastD (usageTrace Q W rng fuel t z (dotBW z W)) d ≤ Q
  | 0, _, _, _, h => absurd h (Nat.not_lt_zero _)
  | fuel + 1, t, z, d, hfuel => by
    simp only [usageTrace]
    by_cases hle : dotBW z W ≤ Q
    · rw [if_pos hle]
      simpa [lastD] using hle
    · rw [if_neg hle]
      have hselne : ¬((selectedIdx z).length = 0) := by
        intro h0
        exact hle (by
          rw [dotBW_eq_zero_of_selectedIdx_nil W (List.length_eq_zero.1 h0)]
          exact hQ)
      rw [if_neg hselne]
      have hk : rng t % (selectedIdx z).length < (selectedIdx z).length :=
        Nat.mod_lt _ (Nat.pos_of_ne_zero hselne)
      have hjt : z.getD ((selectedIdx z).getD (rng t % (selectedIdx z).length) 0) false
          = true := (mem_selectedIdx.1 (getD_mem _ _ _ hk)).2
      simp only [lastD]
      rw [← dotBW_set z W _ hjt]
      have hdec := countTrue_set z _ hjt
      exact usageTrace_lastD Q W rng hQ fuel (t + 1) _ _ (by omega)

/-- Claim C8, counterexample: with weight vector `[0]` (non-negative),
capacity `Q = -1` and the plan `[true]`, the individual starts infeasible
(usage `0 > -1`), the call performs a removal and then crashes, and the
tracked usage never strictly decreases: the usage trace is `[0, 0]`.  This
refutes the claim that usage strictly decreases at least once whenever the
individual started infeasible. -/
theorem claim_C8_counterexample :
    (∀ w ∈ [(0 : Int)], 0 ≤ w) ∧
    dotBW [true] [0] > -1 ∧
    usageTrace (-1) [0] (fun _ => 0) (countTrue [true] + 1) 0 [true]
      (dotBW [true] [0]) = [0, 0] ∧
    ¬ lastD (usageTrace (-1) [0] (fun _ => 0) (countTrue [true] + 1) 0 [true]
        (dotBW [true] [0])) (dotBW [true] [0]) < dotBW [true] [0] ∧
    repairInd (-1) [0] (fun _ => 0) 0 [true] = none := by
  decide

/-- Claim C8, amended: with non-negative weights the tracked usage is
non-increasing across each internal removal step of one repair call; if
additionally the capacity is non-negative and the individual started with
usage exceeding the capacity, the usage strictly decreases during the call
(its final value is at most `Q`, strictly below its initial value). -/
theorem claim_C8_amended_monotone (Q : Int) (W : List Int) (rng : Nat → Nat)
    (t : Nat) (z : List Bool) (hW : ∀ w ∈ W, 0 ≤ w) :
    List.Chain' (fun a b => b ≤ a)
      (usageTrace Q W rng (countTrue z + 1) t z (dotBW z W)) ∧
    (0 ≤ Q → Q < dotBW z W →
      lastD (usageTrace Q W rng (countTrue z + 1) t z (dotBW z W))
          (dotBW z W) ≤ Q ∧
      lastD (usageTrace Q W rng (countTrue z + 1) t z (dotBW z W))
          (dotBW z W) < dotBW z W) := by
  refine ⟨usageTrace_chain Q W rng hW (countTrue z + 1) t z (dotBW z W),
    fun hQ hinf => ?_⟩
  have hlast := usageTrace_lastD Q W rng hQ (countTrue z + 1) t z (dotBW z W)
    (Nat.lt_succ_self _)
  exact ⟨hlast, by omega⟩

/-! ### Frame conditions of the population-level call -/

theorem repairXs_length (Q : Int) (W : List Int) (rng : Nat → Nat) :
    ∀ (t : Nat) (Zs out : List (List Bool)) (t' : Nat),
      repairXs Q W rng t Zs = some (out, t') → out.length = Zs.length
  | t, [], out, t', h => by
    simp only [repairXs] at h
    obtain ⟨h1, _⟩ := Prod.mk.injEq .. ▸ Option.some.injEq .. ▸ h
    simp [← h1]
  | t, z :: rest, out, t', h => by
    simp only [repairXs] at h
    split at h
    · exact absurd h (by simp)
    · rename_i z1 t1 hz
      split at h
      · exact absurd h (by simp)
      · rename_i out1 t2 hr
        have hrec := repairXs_length Q W rng t1 rest out1 t2 hr
        have h1 : z1 :: out1 = out := congrArg Prod.fst (Option.some.inj h)
        simp [← h1, hrec]

theorem zipWith_setX_frame :
    ∀ (pop : List Individual) (out : List (List Bool)) (i : Nat),
      out.length = pop.length →
      ((List.zipWith setX pop out).getD i dfltInd).F = (pop.getD i dfltInd).F ∧
      ((List.zipWith setX pop out).getD i dfltInd).CV = (pop.getD i dfltInd).CV
  | [], out, i, _ => by simp
  | p :: ps, [], i, hl => by simp at hl
  | p :: ps, x :: xs, 0, _ => ⟨rfl, rfl⟩
  | p :: ps, x :: xs, i + 1, hl => by
    simpa using zipWith_setX_frame ps xs i (by simpa using hl)

/-- Claim C7: whenever repair returns a population, the population size is
preserved, each slot holds the individual of the same slot of the input with
only its decision vector `X` possibly changed, and the cached fields `F` and
`CV` are never written. -/
theorem claim_C7_frame (Q : Int) (W : List Int) (rng : Nat → Nat) (t : Nat)
    (pop pop' : List Individual)
    (h : repairPopulation Q W rng t pop = some pop') :
    pop'.length = pop.length ∧
    ∀ i, (pop'.getD i dfltInd).F = (pop.getD i dfltInd).F ∧
      (pop'.getD i dfltInd).CV = (pop.getD i dfltInd).CV := by
  cases hx : repairXs Q W rng t (pop.map Individual.X) with
  | none =>
    rw [repairPopulation, hx] at h
    exact absurd h (by simp)
  | some p =>
    obtain ⟨out, t2⟩ := p
    rw [repairPopulation, hx] at h
    have hp : pop' = List.zipWith setX pop out := by
      simpa using h.symm
    have hlen : out.length = pop.length := by
      have := repairXs_length Q W rng t (pop.map Individual.X) out t2 hx
      simpa using this
    subst hp
    constructor
    · rw [List.length_zipWith]
      omega
    · intro i
      exact zipWith_setX_frame pop out i hlen

/-! ### The generational loop -/

/-- Claim C2 (spec-modelled generational loop): with the capacity-enforcing
repair configured, every offspring batch passes through repair before it is
evaluated, so with non-negative weights and capacity no individual is ever
passed to evaluation while violating the capacity constraint: every
constraint violation computed at evaluation is 0 at every generation, hence
the reported per-generation minimum and average constraint violation are 0
for the whole run. -/
theorem claim_C2_zero_cv_run (Q : Int) (W b : List Int) (rng : Nat → Nat)
    (varOp : Nat → List (List Bool))
    (_hW : ∀ w ∈ W, 0 ≤ w) (hQ : 0 ≤ Q) :
    ∀ (g t ne : Nat),
      ∃ hist, runLoop Q W b rng varOp g t ne = some hist ∧
        ∀ s ∈ hist, (∀ c ∈ s.cvs, c = 0) ∧ s.cvs.sum = 0 := by
  intro g
  induction g with
  | zero => exact fun t ne => ⟨[], rfl, by simp⟩
  | succ g ih =>
    intro t ne
    obtain ⟨Zs, t', hrun, _, hfeas, _⟩ := repairXs_strong Q W rng hQ t (varOp g)
    obtain ⟨hist, hrl, hall⟩ := ih t' (ne + Zs.length)
    refine ⟨(⟨ne + Zs.length, Zs.map (evalCV Q W),
        (Zs.map (fun z => -(dotBW z b))).min?⟩ : GenStat) :: hist,
      ?_, fun s hs => ?_⟩
    · simp only [runLoop, hrun, hrl]
    rcases List.mem_cons.1 hs with hhd | htl
    · subst hhd
      have hzero : ∀ c ∈ Zs.map (evalCV Q W), c = 0 := by
        intro c hc
        obtain ⟨z', hz', rfl⟩ := List.mem_map.1 hc
        exact evalCV_eq_zero_of_le (hfeas z' hz')
      exact ⟨hzero, List.sum_eq_zero hzero⟩
    · exact hall s htl

/-- Claim C6, evidence of the code divergence: the repaired plan depends on
which random draws the call consumes — at the same input, the stream drawing
0 removes item 0 while the stream drawing 1 removes item 1, producing
different plans.  Reproducibility of a run therefore hinges entirely on
fixing the random source consumed here; the code's
`_do(self, problem, pop, **kwargs)` takes no random-source argument and
draws through `np.random.choice` from numpy's module-global generator, so
determinism under a fixed seed rests on seeding hidden global state, not on
the explicitly passed source that the spec requires. -/
theorem claim_C6_rng_dependence :
    repairInd 5 [3, 4] (fun _ => 0) 0 [true, true] = some ([false, true], 1) ∧
    repairInd 5 [3, 4] (fun _ => 1) 0 [true, true] = some ([true, false], 1) := by
  decide

/-! ### Concrete witnesses -/

theorem claim_C1_witness :
    (∀ w ∈ [(3 : Int), 4, 5], 0 ≤ w) ∧ (0 : Int) ≤ 10 ∧
    (∃ Zs' t', repairXs 10 [3, 4, 5] (fun _ => 0) 0 [[true, true, true]]
        = some (Zs', t') ∧
      Zs'.length = [[true, true, true]].length ∧
      ∀ i, dotBW (Zs'.getD i []) [3, 4, 5] ≤ 10 ∧
        evalCV 10 [3, 4, 5] (Zs'.getD i []) = 0 ∧
        evalCV 10 [3, 4, 5] (Zs'.getD i [])
          ≤ evalCV 10 [3, 4, 5] ([[true, true, true]].getD i [])) :=
  ⟨by decide, by decide,
    claim_C1_feasibility 10 [3, 4, 5] (fun _ => 0) 0 [[true, true, true]]
      (by decide) (by decide)⟩

theorem claim_C2_witness :
    (∀ w ∈ [(2 : Int), 3], 0 ≤ w) ∧ (0 : Int) ≤ 5 ∧
    (∃ hist, runLoop 5 [2, 3] [1, 1] (fun _ => 0) (fun _ => [[true, true]])
        2 0 0 = some hist ∧
      ∀ s ∈ hist, (∀ c ∈ s.cvs, c = 0) ∧ s.cvs.sum = 0) :=
  ⟨by decide, by decide,
    claim_C2_zero_cv_run 5 [2, 3] [1, 1] (fun _ => 0) (fun _ => [[true, true]])
      (by decide) (by decide) 2 0 0⟩

theorem claim_C3_witness :
    (∀ w ∈ [(3 : Int), 4, 5], 0 ≤ w) ∧ (0 : Int) ≤ 10 ∧
    (∃ Zs' t1, repairXs 10 [3, 4, 5] (fun _ => 0) 0 [[true, true, true]]
        = some (Zs', t1) ∧
      (∀ t2, repairXs 10 [3, 4, 5] (fun _ => 0) t2 Zs' = some (Zs', t2)) ∧
      (∀ (z : List Bool) (t3 : Nat), dotBW z [3, 4, 5] ≤ 10 →
        repairInd 10 [3, 4, 5] (fun _ => 0) t3 z = some (z, t3))) :=
  ⟨by decide, by decide,
    claim_C3_idempotent 10 [3, 4, 5] (fun _ => 0) 0 [[true, true, true]]
      (by decide) (by decide)⟩

theorem claim_C4_witness :
    (∀ w ∈ [(3 : Int), 4, 5], 0 ≤ w) ∧ (0 : Int) ≤ 10 ∧
    (∃ z' t', repairInd 10 [3, 4, 5] (fun _ => 0) 0 [true, true, true]
        = some (z', t') ∧
      t' - 0 = countTrue [true, true, true] - countTrue z' ∧
      t' - 0 ≤ countTrue [true, true, true] ∧
      countTrue [true, true, true] ≤ ([true, true, true] : List Bool).length) :=
  ⟨by decide, by decide,
    claim_C4_termination 10 [3, 4, 5] (fun _ => 0) 0 [true, true, true]
      (by decide) (by decide)⟩

theorem claim_C5_amended_witness :
    (0 : Int) ≤ 1 ∧
    ([(2 : Int)] : List Int).length = ([true] : List Bool).length ∧
    (∀ z' ∈ [[true]], ([(2 : Int)] : List Int).length = z'.length) ∧
    ((repairInd 1 [2] (fun _ => 0) 0 [true]).isSome ∧
     (repairXs 1 [2] (fun _ => 0) 0 [[true]]).isSome) :=
  ⟨by decide, by decide, by decide,
    claim_C5_amended_no_failure 1 [2] (fun _ => 0) (by decide) 0 [true] [[true]]
      (by decide) (by decide)⟩

theorem claim_C7_witness :
    repairPopulation 1 [1, 1] (fun _ => 0) 0 [⟨[true, true], some 5, some 2⟩]
        = some [⟨[false, true], some 5, some 2⟩] ∧
    (([⟨[false, true], some 5, some 2⟩] : List Individual).length
        = ([⟨[true, true], some 5, some 2⟩] : List Individual).length ∧
      ∀ i, (([⟨[false, true], some 5, some 2⟩] : List Individual).getD i dfltInd).F
          = (([⟨[true, true], some 5, some 2⟩] : List Individual).getD i dfltInd).F ∧
        (([⟨[false, true], some 5, some 2⟩] : List Individual).getD i dfltInd).CV
          = (([⟨[true, true], some 5, some 2⟩] : List Individual).getD i dfltInd).CV) :=
  ⟨by decide,
    claim_C7_frame 1 [1, 1] (fun _ => 0) 0 [⟨[true, true], some 5, some 2⟩]
      [⟨[false, true], some 5, some 2⟩] (by decide)⟩

theorem claim_C8_amended_witness :
    (∀ w ∈ [(3 : Int), 4, 5], 0 ≤ w) ∧
    (List.Chain' (fun a b => b ≤ a)
        (usageTrace 10 [3, 4, 5] (fun _ => 0) (countTrue [true, true, true] + 1)
          0 [true, true, true] (dotBW [true, true, true] [3, 4, 5])) ∧
      ((0 : Int) ≤ 10 → 10 < dotBW [true, true, true] [3, 4, 5] →
        lastD (usageTrace 10 [3, 4, 5] (fun _ => 0)
            (countTrue [true, true, true] + 1) 0 [true, true, true]
            (dotBW [true, true, true] [3, 4, 5]))
            (dotBW [true, true, true] [3, 4, 5]) ≤ 10 ∧
        lastD (usageTrace 10 [3, 4, 5] (fun _ => 0)
            (countTrue [true, true, true] + 1) 0 [true, true, true]
            (dotBW [true, true, true] [3, 4, 5]))
            (dotBW [true, true, true] [3, 4, 5])
          < dotBW [true, true, true] [3, 4, 5])) :=
  ⟨by decide,
    claim_C8_amended_monotone 10 [3, 4, 5] (fun _ => 0) 0 [true, true, true]
      (by decide)⟩

theorem claim_C9_witness :
    repairInd 10 [3, 4, 5] (fun _ => 0) 0 [true, true, true]
        = some ([false, true, true], 1) ∧
    ((∀ j, ([false, true, true] : List Bool).getD j false = true →
        ([true, true, true] : List Bool).getD j false = true) ∧
      ∀ b : List Int, (∀ v ∈ b, 0 ≤ v) →
        dotBW [false, true, true] b ≤ dotBW [true, true, true] b) :=
  ⟨by decide,
    claim_C9_subset_profit 10 [3, 4, 5] (fun _ => 0) 0 [true, true, true]
      [false, true, true] 1 (by decide)⟩

end PymooRepair
